import Mathlib

/-!
Verification of the encryption module of sage-bitrix-configurador
(src/src-tauri/src/encryption.rs).

The module derives an AES-256-CBC key and IV by padding or truncating a
machine-identity string, frames the ciphertext behind a length-prefixed
metadata record, and parses that record back on decryption.

Modelling conventions:
* Strings are lists of characters; `strBytes` is the UTF-8 byte sequence a
  Rust `String` holds, so Rust byte lengths are `byteLen`.
* Machine bytes are `Nat` values below 256 by construction.
* Rust `Result<T, String>` is `RsResult`; a panic (process abort) is
  modelled as `none` in an `Option` around the result.
* The AES block function lives in the external `aes` crate, so it is kept
  abstract as a `BlockCipher`; properties are stated for every cipher with
  the block round-trip property and instantiated at the executable
  `xorCipher` for concrete evaluation.
* File system access (reading and writing the container file) is plain
  I/O excluded by the specification; the functions below receive or
  return the container bytes directly.
-/

namespace Encryption

/-- UTF-8 encoding of a single character, as its list of bytes. This is the
byte representation Rust uses inside `String` and `str`. -/
def charBytes (c : Char) : List Nat :=
  if c.toNat < 128 then [c.toNat]
  else if c.toNat < 2048 then [192 + c.toNat / 64, 128 + c.toNat % 64]
  else if c.toNat < 65536 then
    [224 + c.toNat / 4096, 128 + c.toNat / 64 % 64, 128 + c.toNat % 64]
  else
    [240 + c.toNat / 262144, 128 + c.toNat / 4096 % 64, 128 + c.toNat / 64 % 64,
      128 + c.toNat % 64]

/-- Byte sequence of a string (Rust `str::as_bytes`). -/
def strBytes (s : List Char) : List Nat := (s.map charBytes).flatten

/-- Byte length of a string (Rust `String::len`). -/
def byteLen (s : List Char) : Nat := (strBytes s).length

/-- Rust `String::truncate(n)`: keep the first `n` bytes. It panics when
byte position `n` is not a character boundary; the panic is modelled as
`none`. When `n` is at least the byte length the call is a no-op. -/
def truncAt (s : List Char) (n : Nat) : Option (List Char) :=
  match s, n with
  | _, 0 => some []
  | [], _ => some []
  | c :: cs, n =>
    if (charBytes c).length ≤ n then
      (truncAt cs (n - (charBytes c).length)).map (fun t => c :: t)
    else none

/-- Fuelled rendering of the Rust loop
`while result.len() < length { result.push(pad_char) }`.
Fuel `len` always suffices because every character occupies at least one
byte. -/
def padLoopAux (padChar : Char) (len : Nat) : Nat → List Char → List Char
  | 0, acc => acc
  | fuel + 1, acc =>
    if byteLen acc < len then padLoopAux padChar len fuel (acc ++ [padChar]) else acc

/-- Models `pad_with_char`: truncate the input to `len` bytes when it is
longer, otherwise push `padChar` until the byte length reaches `len`.
Returns `none` exactly when the Rust code panics, namely when
`String::truncate` is asked to cut inside a multi-byte character. -/
def pad_with_char (input : List Char) (len : Nat) (padChar : Char) : Option (List Char) :=
  if byteLen input > len then truncAt input len
  else some (padLoopAux padChar len len input)

/-- Models `get_key`: the bytes of the padded computer-info string.
`none` models the panic propagated from `pad_with_char`. -/
def get_key (keyLength : Nat) (computerInfo : List Char) (padChar : Char) : Option (List Nat) :=
  (pad_with_char computerInfo keyLength padChar).map strBytes

/-- Little-endian bytes of `n` as a `u32`
(Rust `(n as u32).to_le_bytes()`, including the `as u32` truncation). -/
def toLE4 (n : Nat) : List Nat :=
  [n % 256, n / 256 % 256, n / 65536 % 256, n / 16777216 % 256]

/-- Rust `u32::from_le_bytes` applied to the first four bytes of a list. -/
def fromLE4 (bs : List Nat) : Nat :=
  bs.getD 0 0 + 256 * (bs.getD 1 0 + 256 * (bs.getD 2 0 + 256 * bs.getD 3 0))

/-- Mirror of Rust `Result<T, String>` with decidable equality. -/
inductive RsResult (α : Type) where
  | ok : α → RsResult α
  | err : String → RsResult α
deriving DecidableEq

/-- Abstract 16-byte block cipher keyed by a 32-byte key. The AES-256 block
function itself is provided by the external `aes` crate. -/
structure BlockCipher where
  enc : List Nat → List Nat → List Nat
  dec : List Nat → List Nat → List Nat

/-- Bytewise xor of two byte lists (length of the shorter). -/
def xorBytes (a b : List Nat) : List Nat := List.zipWith Nat.xor a b

/-- Fuelled splitting of a byte list into 16-byte blocks. -/
def chunksAux : Nat → List Nat → List (List Nat)
  | 0, _ => []
  | _, [] => []
  | fuel + 1, l => l.take 16 :: chunksAux fuel (l.drop 16)

/-- Successive 16-byte blocks of a byte list. -/
def chunks (l : List Nat) : List (List Nat) := chunksAux l.length l

/-- CBC encryption of a list of plaintext blocks; `prev` is the previous
ciphertext block, initially the IV. -/
def cbcEncBlocks (C : BlockCipher) (key : List Nat) : List Nat → List (List Nat) → List (List Nat)
  | _, [] => []
  | prev, b :: bs =>
    let c := C.enc key (xorBytes b prev)
    c :: cbcEncBlocks C key c bs

/-- CBC decryption of a list of ciphertext blocks. -/
def cbcDecBlocks (C : BlockCipher) (key : List Nat) : List Nat → List (List Nat) → List (List Nat)
  | _, [] => []
  | prev, b :: bs => xorBytes (C.dec key b) prev :: cbcDecBlocks C key b bs

/-- Models `encrypt_data`: AES-256-CBC with PKCS7 padding. Cipher
construction (`new_from_slices`) fails exactly when the key is not 32 bytes
or the IV is not 16 bytes. The pad length is `16 - data.len() % 16`, so a
block-aligned input receives one full extra block. -/
def encrypt_data (C : BlockCipher) (data key iv : List Nat) : RsResult (List Nat) :=
  if key.length = 32 ∧ iv.length = 16 then
    .ok ((cbcEncBlocks C key iv
      (chunks (data ++ List.replicate (16 - data.length % 16) (16 - data.length % 16)))).flatten)
  else .err "Error creating cipher: InvalidLength"

/-- PKCS7 unpadding as performed by `decrypt_padded_mut`: the last byte is
the pad length, which must lie between 1 and 16, not exceed the message,
and every pad byte must equal it. -/
def pkcs7Unpad (p : List Nat) : RsResult (List Nat) :=
  match p.getLast? with
  | none => .err "Error during decryption: Unpad Error"
  | some n =>
    if 1 ≤ n ∧ n ≤ 16 ∧ n ≤ p.length ∧ (p.drop (p.length - n)).all (fun b => b = n) then
      .ok (p.take (p.length - n))
    else .err "Error during decryption: Unpad Error"

/-- Models `decrypt_data`: AES-256-CBC decryption followed by PKCS7
unpadding; a ciphertext whose length is zero or not a multiple of 16 is
rejected by `decrypt_padded_mut`. -/
def decrypt_data (C : BlockCipher) (encryptedData key iv : List Nat) : RsResult (List Nat) :=
  if key.length = 32 ∧ iv.length = 16 then
    if encryptedData.length % 16 = 0 ∧ encryptedData.length ≠ 0 then
      pkcs7Unpad ((cbcDecBlocks C key iv (chunks encryptedData)).flatten)
    else .err "Error during decryption: Unpad Error"
  else .err "Error creating cipher: InvalidLength"

/-- Characters of the field tag `MAC=`. -/
def macTag : List Char := ['M', 'A', 'C', '=']

/-- Characters of the field tag `HOST=`. -/
def hostTag : List Char := ['H', 'O', 'S', 'T', '=']

/-- Characters of the field tag `KEY_CHAR=`. -/
def keyCharTag : List Char := ['K', 'E', 'Y', '_', 'C', 'H', 'A', 'R', '=']

/-- Removes `tag` from the front of `part` when it is there, mirroring the
prefix stripping done on each metadata part. -/
def stripTag : List Char → List Char → Option (List Char)
  | [], s => some s
  | _ :: _, [] => none
  | t :: ts, c :: cs => if c = t then stripTag ts cs else none

/-- Rust `str::split(';')`: the parts between separators, empty parts
included. -/
def splitOnSemi : List Char → List (List Char)
  | [] => [[]]
  | c :: cs =>
    if c = ';' then [] :: splitOnSemi cs
    else
      match splitOnSemi cs with
      | p :: ps => (c :: p) :: ps
      | [] => [[c]]

/-- State built by the metadata-parsing loop of `decrypt_json`. -/
structure ParsedMeta where
  mac : List Char
  host : List Char
  keyChar : Char
deriving DecidableEq

/-- One iteration of the `for part in metadata_str.split(';')` loop: the
first matching tag wins, and an empty `KEY_CHAR` value is ignored. -/
def parseStep (st : ParsedMeta) (part : List Char) : ParsedMeta :=
  match stripTag macTag part with
  | some v => { st with mac := v }
  | none =>
    match stripTag hostTag part with
    | some v => { st with host := v }
    | none =>
      match stripTag keyCharTag part with
      | some v => if v.isEmpty then st else { st with keyChar := v.headD 'T' }
      | none => st

/-- The metadata-parsing loop of `decrypt_json`; `fb` is the fallback
character already resolved from the optional caller key string. -/
def parseMetadata (meta : List Char) (fb : Char) : ParsedMeta :=
  (splitOnSemi meta).foldl parseStep { mac := [], host := [], keyChar := fb }

/-- Resolution of the optional caller key string to a single derivation
character: first character of the string defaulted to `T`. This is the
computation `char_key.unwrap_or("T").chars().next().unwrap_or('T')`
appearing in both `encrypt_json` and `decrypt_json`. -/
def charKeyChar (ck : Option (List Char)) : Char := (ck.getD ['T']).headD 'T'

/-- The metadata record written by `encrypt_json`:
`MAC=...;HOST=...;KEY_CHAR=...;` with the full key string embedded
verbatim. -/
def metadataOf (mac host ckStr : List Char) : List Char :=
  macTag ++ mac ++ [';'] ++ hostTag ++ host ++ [';'] ++ keyCharTag ++ ckStr ++ [';']

/-- Models `encrypt_json` up to the point where the container bytes exist in
memory; persisting them to disk is plain I/O excluded by the spec, so the
container itself is returned. The machine fingerprint (MAC and hostname)
is passed in, since its enumeration is an external-tool invocation. `none`
models a panic inside key derivation. -/
def encrypt_json (C : BlockCipher) (mac host : List Char) (charKey : Option (List Char))
    (jsonData : List Char) : Option (RsResult (List Nat)) :=
  let ckStr := charKey.getD ['T']
  let ch := charKeyChar charKey
  let computerInfo := mac ++ host
  let metadataBytes := strBytes (metadataOf mac host ckStr)
  match get_key 32 computerInfo ch, get_key 16 computerInfo ch with
  | some key, some iv =>
    match encrypt_data C (strBytes jsonData) key iv with
    | .ok ct => some (.ok (toLE4 metadataBytes.length ++ metadataBytes ++ ct))
    | .err e => some (.err ("Encryption error: " ++ e))
  | _, _ => none

/-- Builds the character with code point `n` when `n` is a valid scalar
value. -/
def mkChar (n : Nat) : Option Char :=
  if Nat.isValidChar n then some (Char.ofNat n) else none

/-- Decodes one UTF-8 character from the front of a byte list, rejecting
truncated, overlong, surrogate and out-of-range forms, as Rust
`String::from_utf8` does. -/
def decodeChar : List Nat → Option (Char × List Nat)
  | [] => none
  | b0 :: r0 =>
    if b0 < 128 then (mkChar b0).map (fun c => (c, r0))
    else if b0 < 194 then none
    else if b0 < 224 then
      match r0 with
      | b1 :: r1 =>
        if 128 ≤ b1 ∧ b1 < 192 then
          (mkChar ((b0 - 192) * 64 + (b1 - 128))).map (fun c => (c, r1))
        else none
      | [] => none
    else if b0 < 240 then
      match r0 with
      | b1 :: b2 :: r2 =>
        if (128 ≤ b1 ∧ b1 < 192) ∧ (128 ≤ b2 ∧ b2 < 192) then
          if 2048 ≤ (b0 - 224) * 4096 + (b1 - 128) * 64 + (b2 - 128) then
            (mkChar ((b0 - 224) * 4096 + (b1 - 128) * 64 + (b2 - 128))).map (fun c => (c, r2))
          else none
        else none
      | _ => none
    else if b0 < 245 then
      match r0 with
      | b1 :: b2 :: b3 :: r3 =>
        if (128 ≤ b1 ∧ b1 < 192) ∧ (128 ≤ b2 ∧ b2 < 192) ∧ (128 ≤ b3 ∧ b3 < 192) then
          if 65536 ≤ (b0 - 240) * 262144 + (b1 - 128) * 4096 + (b2 - 128) * 64 + (b3 - 128) then
            (mkChar ((b0 - 240) * 262144 + (b1 - 128) * 4096 + (b2 - 128) * 64 + (b3 - 128))).map
              (fun c => (c, r3))
          else none
        else none
      | _ => none
    else none

/-- Fuelled UTF-8 decoding loop; each step consumes at least one byte, so
fuel equal to the byte count suffices. -/
def utf8DecodeAux : Nat → List Nat → Option (List Char)
  | _, [] => some []
  | 0, _ :: _ => none
  | fuel + 1, b :: r =>
    match decodeChar (b :: r) with
    | some (c, rest) => (utf8DecodeAux fuel rest).map (fun cs => c :: cs)
    | none => none

/-- Rust `String::from_utf8`: the decoded character list, or `none` on
invalid UTF-8. -/
def utf8Decode (l : List Nat) : Option (List Char) := utf8DecodeAux l.length l

/-- Models `decrypt_json` after the container bytes have been read from
disk: length checks, metadata extraction and parsing, key re-derivation
from the embedded identity, CBC decryption and UTF-8 conversion. `none`
models a panic inside key derivation. -/
def decrypt_json (C : BlockCipher) (encryptedData : List Nat) (charKey : Option (List Char)) :
    Option (RsResult (List Char)) :=
  if encryptedData.length < 4 then some (.err "File is too small to contain valid data")
  else
    let metadataLen := fromLE4 (encryptedData.take 4)
    if encryptedData.length < 4 + metadataLen then
      some (.err "File is too small to contain complete metadata")
    else
      match utf8Decode ((encryptedData.drop 4).take metadataLen) with
      | none => some (.err "Invalid metadata encoding")
      | some metadataStr =>
        let st := parseMetadata metadataStr (charKeyChar charKey)
        let computerInfo := st.mac ++ st.host
        match get_key 32 computerInfo st.keyChar, get_key 16 computerInfo st.keyChar with
        | some key, some iv =>
          match decrypt_data C ((encryptedData.drop 4).drop metadataLen) key iv with
          | .ok decrypted =>
            match utf8Decode decrypted with
            | some s => some (.ok s)
            | none => some (.err "Failed to convert decrypted data to string")
          | .err e => some (.err ("Decryption error: " ++ e))
        | _, _ => none

/-- ASCII lowercasing of a name, standing in for Rust `str::to_lowercase`
on the interface names examined by the selection heuristic. -/
def lowerAscii (s : List Char) : List Char := s.map Char.toLower

/-- Whether `p` is an initial segment of `l`. -/
def startsWithList : List Char → List Char → Bool
  | [], _ => true
  | _ :: _, [] => false
  | a :: asx, b :: bs => a = b && startsWithList asx bs

/-- Rust `str::contains` for a literal needle: some position of the
haystack starts with the needle. -/
def containsStr : List Char → List Char → Bool
  | hay, needle =>
    if startsWithList needle hay then true
    else
      match hay with
      | [] => false
      | _ :: t => containsStr t needle

/-- Needle `virtual` of the selection heuristic. -/
def virtualStr : List Char := ['v', 'i', 'r', 't', 'u', 'a', 'l']

/-- Needle `vpn` of the selection heuristic. -/
def vpnStr : List Char := ['v', 'p', 'n']

/-- Needle `vethernet` of the selection heuristic. -/
def vethernetStr : List Char := ['v', 'e', 't', 'h', 'e', 'r', 'n', 'e', 't']

/-- Needle `loopback` of the selection heuristic. -/
def loopbackStr : List Char := ['l', 'o', 'o', 'p', 'b', 'a', 'c', 'k']

/-- Needle `ethernet` of the selection heuristic. -/
def ethernetStr : List Char := ['e', 't', 'h', 'e', 'r', 'n', 'e', 't']

/-- Needle `wi-fi` of the selection heuristic. -/
def wifiStr : List Char := ['w', 'i', '-', 'f', 'i']

/-- Needle `wlan` of the selection heuristic. -/
def wlanStr : List Char := ['w', 'l', 'a', 'n']

/-- First-pass predicate of `get_mac_for_metadata` on a lowercased
interface name: no virtual, vpn, vethernet or loopback marker, and an
ethernet (but not vethernet), wi-fi or wlan marker. -/
def firstPassPred (nl : List Char) : Bool :=
  !containsStr nl virtualStr && !containsStr nl vpnStr && !containsStr nl vethernetStr &&
    !containsStr nl loopbackStr &&
    ((containsStr nl ethernetStr && !containsStr nl vethernetStr) || containsStr nl wifiStr ||
      containsStr nl wlanStr)

/-- The hardcoded last-resort MAC `902E168B9AC1`. -/
def hardcodedMac : List Char := ['9', '0', '2', 'E', '1', '6', '8', 'B', '9', 'A', 'C', '1']

/-- Models the selection logic of `get_mac_for_metadata` over an
already-enumerated interface list of (name, MAC) pairs; enumeration itself
is an external `ipconfig` invocation. First pass: first preferred
interface. Second pass: first non-loopback interface. Last resort: the
hardcoded MAC. An empty selected MAC falls through, exactly as the empty
`selected_mac` string does in the source. -/
def get_mac_from_interfaces (ifaces : List (List Char × List Char)) : List Char :=
  let m1 :=
    match ifaces.find? (fun p => firstPassPred (lowerAscii p.1)) with
    | some p => p.2
    | none => []
  let m2 :=
    if m1.isEmpty then
      match ifaces.find? (fun p => !containsStr (lowerAscii p.1) loopbackStr) with
      | some p => p.2
      | none => []
    else m1
  if m2.isEmpty then hardcodedMac else m2

/-- Executable block cipher used to instantiate theorems about an abstract
cipher: xor with the first 16 key bytes. It satisfies the block round-trip
property that the real AES-256 block function satisfies. -/
def xorCipher : BlockCipher where
  enc := fun k b => xorBytes b (k.take 16)
  dec := fun k b => xorBytes b (k.take 16)

/-- Claimed parsing semantics, following the words of the claim about
duplicate metadata fields: each part matching a known field tag overwrites
the value stored for that field so far, with no special case for an empty
`KEY_CHAR` value. Written for comparison with `parseStep`, which is the
semantics of the source. -/
def parseStepClaimed (st : ParsedMeta) (part : List Char) : ParsedMeta :=
  match stripTag macTag part with
  | some v => { st with mac := v }
  | none =>
    match stripTag hostTag part with
    | some v => { st with host := v }
    | none =>
      match stripTag keyCharTag part with
      | some v => { st with keyChar := v.headD 'T' }
      | none => st

/-- Metadata parsing under the claimed last-occurrence-always-wins
semantics. -/
def parseMetadataClaimed (meta : List Char) (fb : Char) : ParsedMeta :=
  (splitOnSemi meta).foldl parseStepClaimed { mac := [], host := [], keyChar := fb }

/-- Last value carried by a part of the form `tag ++ value`, scanning left
to right. -/
def lastVal (tag : List Char) : List (List Char) → Option (List Char)
  | [] => none
  | p :: ps =>
    match lastVal tag ps with
    | some v => some v
    | none => stripTag tag p

/-- Last nonempty value carried by a part of the form `tag ++ value`. -/
def lastValNonempty (tag : List Char) : List (List Char) → Option (List Char)
  | [] => none
  | p :: ps =>
    match lastValNonempty tag ps with
    | some v => some v
    | none =>
      match stripTag tag p with
      | some v => if v.isEmpty then none else some v
      | none => none

/-- Extracts the ok payload of an optional result, with a default. -/
def rsOkD {α : Type} (r : Option (RsResult α)) (d : α) : α :=
  match r with
  | some (.ok a) => a
  | _ => d

/-! ### Byte-level facts about UTF-8 strings -/

theorem charBytes_length_pos (c : Char) : 0 < (charBytes c).length := by
  unfold charBytes
  split
  · simp
  split
  · simp
  split <;> simp

theorem byteLen_nil : byteLen [] = 0 := rfl

theorem byteLen_cons (c : Char) (s : List Char) :
    byteLen (c :: s) = (charBytes c).length + byteLen s := by
  simp [byteLen, strBytes]

theorem byteLen_append (a b : List Char) : byteLen (a ++ b) = byteLen a + byteLen b := by
  simp [byteLen, strBytes]

theorem strBytes_cons (c : Char) (s : List Char) :
    strBytes (c :: s) = charBytes c ++ strBytes s := by
  simp [strBytes]

theorem strBytes_append (a b : List Char) : strBytes (a ++ b) = strBytes a ++ strBytes b := by
  simp [strBytes]

theorem length_le_byteLen (s : List Char) : s.length ≤ byteLen s := by
  induction s with
  | nil => simp [byteLen_nil]
  | cons c cs ih =>
    have := charBytes_length_pos c
    simp only [List.length_cons, byteLen_cons]
    omega

theorem byteLen_replicate (n : Nat) (c : Char) :
    byteLen (List.replicate n c) = n * (charBytes c).length := by
  induction n with
  | zero => simp [byteLen_nil]
  | succ m ih =>
    rw [List.replicate_succ, byteLen_cons, ih]
    ring

/-! ### Padding and truncation -/

theorem truncAt_all_one (s : List Char) (h : ∀ c ∈ s, (charBytes c).length = 1) :
    ∀ n, truncAt s n = some (s.take n) := by
  induction s with
  | nil => intro n; cases n <;> simp [truncAt]
  | cons c cs ih =>
    intro n
    cases n with
    | zero => simp [truncAt]
    | succ m =>
      have hc : (charBytes c).length = 1 := h c (by simp)
      have hcs : ∀ x ∈ cs, (charBytes x).length = 1 := fun x hx => h x (by simp [hx])
      simp [truncAt, hc, ih hcs m]

theorem byteLen_all_one (s : List Char) (h : ∀ c ∈ s, (charBytes c).length = 1) :
    byteLen s = s.length := by
  induction s with
  | nil => simp [byteLen_nil]
  | cons c cs ih =>
    rw [byteLen_cons, h c (by simp), ih (fun x hx => h x (by simp [hx]))]
    simp [Nat.add_comm]

theorem strBytes_take_all_one (s : List Char) (h : ∀ c ∈ s, (charBytes c).length = 1) :
    ∀ n, strBytes (s.take n) = (strBytes s).take n := by
  induction s with
  | nil => intro n; simp [strBytes]
  | cons c cs ih =>
    intro n
    cases n with
    | zero => simp [strBytes]
    | succ m =>
      have hc : (charBytes c).length = 1 := h c (by simp)
      rw [List.take_succ_cons, strBytes_cons, strBytes_cons,
        List.take_append_eq_append_take, ih (fun x hx => h x (by simp [hx])) m]
      congr 1
      · rw [List.take_of_length_le (by omega)]
      · congr 1
        omega

theorem padLoopAux_one (padChar : Char) (len : Nat) (hc : (charBytes padChar).length = 1) :
    ∀ (fuel : Nat) (acc : List Char), len ≤ byteLen acc + fuel →
      padLoopAux padChar len fuel acc = acc ++ List.replicate (len - byteLen acc) padChar := by
  intro fuel
  induction fuel with
  | zero =>
    intro acc hf
    have : len - byteLen acc = 0 := by omega
    simp [padLoopAux, this]
  | succ f ih =>
    intro acc hf
    by_cases hlt : byteLen acc < len
    · have hstep : byteLen (acc ++ [padChar]) = byteLen acc + 1 := by
        rw [byteLen_append, byteLen_cons, byteLen_nil, hc]
      rw [padLoopAux, if_pos hlt, ih (acc ++ [padChar]) (by omega), hstep]
      have hrep : len - byteLen acc = (len - (byteLen acc + 1)) + 1 := by omega
      rw [hrep, List.append_assoc, List.singleton_append, ← List.replicate_succ]
    · have : len - byteLen acc = 0 := by omega
      rw [padLoopAux, if_neg hlt, this]
      simp

/-- Behaviour of `pad_with_char` when every character involved is a
single-byte (ASCII) character: truncate to the first `len` characters, or
append copies of the padding character up to length `len`. -/
theorem pad_with_char_all_one (input : List Char) (len : Nat) (padChar : Char)
    (hpad : (charBytes padChar).length = 1) (hin : ∀ c ∈ input, (charBytes c).length = 1) :
    pad_with_char input len padChar =
      if byteLen input > len then some (input.take len)
      else some (input ++ List.replicate (len - byteLen input) padChar) := by
  unfold pad_with_char
  by_cases h : byteLen input > len
  · rw [if_pos h, if_pos h, truncAt_all_one input hin len]
  · rw [if_neg h, if_neg h, padLoopAux_one padChar len hpad len input (by omega)]

/-! ### Little-endian length field -/

theorem toLE4_length (n : Nat) : (toLE4 n).length = 4 := rfl

theorem fromLE4_toLE4 (n : Nat) (h : n < 4294967296) : fromLE4 (toLE4 n) = n := by
  simp [toLE4, fromLE4, List.getD]
  omega

/-! ### Tag stripping and splitting -/

theorem stripTag_eq_some (t : List Char) :
    ∀ (p v : List Char), stripTag t p = some v ↔ p = t ++ v := by
  induction t with
  | nil => intro p v; simp [stripTag]
  | cons a ts ih =>
    intro p v
    cases p with
    | nil => simp [stripTag]
    | cons b bs =>
      by_cases hab : b = a
      · subst hab
        simp [stripTag, ih bs v]
      · simp [stripTag, hab]

theorem stripTag_append (t r : List Char) : stripTag t (t ++ r) = some r :=
  (stripTag_eq_some t (t ++ r) r).mpr rfl

theorem splitOnSemi_ne_nil (s : List Char) : splitOnSemi s ≠ [] := by
  induction s with
  | nil => simp [splitOnSemi]
  | cons c cs ih =>
    by_cases h : c = ';'
    · simp [splitOnSemi, h]
    · simp only [splitOnSemi, if_neg h]
      cases hcs : splitOnSemi cs with
      | nil => exact absurd hcs ih
      | cons p ps => simp

theorem splitOnSemi_sep (a : List Char) (r : List Char) (h : ∀ c ∈ a, c ≠ ';') :
    splitOnSemi (a ++ ';' :: r) = a :: splitOnSemi r := by
  induction a with
  | nil => simp [splitOnSemi]
  | cons c cs ih =>
    have hc : c ≠ ';' := h c (by simp)
    have hcs : ∀ x ∈ cs, x ≠ ';' := fun x hx => h x (by simp [hx])
    simp only [List.cons_append, splitOnSemi, if_neg hc]
    rw [show (cs.append (';' :: r)) = cs ++ ';' :: r from rfl, ih hcs]

theorem splitOnSemi_no_sep (a : List Char) (h : ∀ c ∈ a, c ≠ ';') :
    splitOnSemi a = [a] := by
  induction a with
  | nil => simp [splitOnSemi]
  | cons c cs ih =>
    have hc : c ≠ ';' := h c (by simp)
    have hcs : ∀ x ∈ cs, x ≠ ';' := fun x hx => h x (by simp [hx])
    simp only [splitOnSemi, if_neg hc, ih hcs]

/-! ### Metadata parsing -/

theorem stripTag_host_of_mac (p v : List Char) (h : stripTag macTag p = some v) :
    stripTag hostTag p = none := by
  rw [stripTag_eq_some] at h
  subst h
  simp [macTag, hostTag, stripTag]

theorem stripTag_keyChar_of_mac (p v : List Char) (h : stripTag macTag p = some v) :
    stripTag keyCharTag p = none := by
  rw [stripTag_eq_some] at h
  subst h
  simp [macTag, keyCharTag, stripTag]

theorem stripTag_mac_of_host (p v : List Char) (h : stripTag hostTag p = some v) :
    stripTag macTag p = none := by
  rw [stripTag_eq_some] at h
  subst h
  simp [macTag, hostTag, stripTag]

theorem stripTag_keyChar_of_host (p v : List Char) (h : stripTag hostTag p = some v) :
    stripTag keyCharTag p = none := by
  rw [stripTag_eq_some] at h
  subst h
  simp [hostTag, keyCharTag, stripTag]

theorem parseStep_mac (st : ParsedMeta) (p : List Char) :
    (parseStep st p).mac = (stripTag macTag p).getD st.mac := by
  unfold parseStep
  cases h1 : stripTag macTag p with
  | some v => simp
  | none =>
    cases h2 : stripTag hostTag p with
    | some v => simp
    | none =>
      cases h3 : stripTag keyCharTag p with
      | some v => by_cases he : v.isEmpty <;> simp [he]
      | none => simp

theorem parseStep_host (st : ParsedMeta) (p : List Char) :
    (parseStep st p).host = (stripTag hostTag p).getD st.host := by
  unfold parseStep
  cases h1 : stripTag macTag p with
  | some v => simp [stripTag_host_of_mac p v h1]
  | none =>
    cases h2 : stripTag hostTag p with
    | some v => simp
    | none =>
      cases h3 : stripTag keyCharTag p with
      | some v => by_cases he : v.isEmpty <;> simp [he]
      | none => simp

theorem parseStep_keyChar (st : ParsedMeta) (p : List Char) :
    (parseStep st p).keyChar =
      match stripTag keyCharTag p with
      | some v => if v.isEmpty then st.keyChar else v.headD 'T'
      | none => st.keyChar := by
  unfold parseStep
  cases h1 : stripTag macTag p with
  | some v => simp [stripTag_keyChar_of_mac p v h1]
  | none =>
    cases h2 : stripTag hostTag p with
    | some v => simp [stripTag_keyChar_of_host p v h2]
    | none =>
      cases h3 : stripTag keyCharTag p with
      | some v => by_cases he : v.isEmpty <;> simp [he]
      | none => simp

/-- Full characterisation of the parsing loop: `MAC` and `HOST` keep the
last occurrence, `KEY_CHAR` keeps the last occurrence with a nonempty
value. -/
theorem parse_foldl (parts : List (List Char)) :
    ∀ st : ParsedMeta,
      parts.foldl parseStep st =
        { mac := (lastVal macTag parts).getD st.mac,
          host := (lastVal hostTag parts).getD st.host,
          keyChar :=
            match lastValNonempty keyCharTag parts with
            | some v => v.headD 'T'
            | none => st.keyChar } := by
  induction parts with
  | nil => intro st; simp [lastVal, lastValNonempty]
  | cons p ps ih =>
    intro st
    rw [List.foldl_cons, ih (parseStep st p)]
    have hmac : (lastVal macTag ps).getD (parseStep st p).mac =
        (lastVal macTag (p :: ps)).getD st.mac := by
      rw [lastVal]
      cases hps : lastVal macTag ps with
      | some v => simp
      | none =>
        rw [parseStep_mac]
        cases h : stripTag macTag p <;> simp
    have hhost : (lastVal hostTag ps).getD (parseStep st p).host =
        (lastVal hostTag (p :: ps)).getD st.host := by
      rw [lastVal]
      cases hps : lastVal hostTag ps with
      | some v => simp
      | none =>
        rw [parseStep_host]
        cases h : stripTag hostTag p <;> simp
    have hkc :
        (match lastValNonempty keyCharTag ps with
          | some v => v.headD 'T'
          | none => (parseStep st p).keyChar) =
        (match lastValNonempty keyCharTag (p :: ps) with
          | some v => v.headD 'T'
          | none => st.keyChar) := by
      rw [lastValNonempty]
      cases hps : lastValNonempty keyCharTag ps with
      | some v => simp
      | none =>
        rw [parseStep_keyChar]
        cases h : stripTag keyCharTag p with
        | some v => by_cases he : v.isEmpty <;> simp [he]
        | none => simp
    rw [hmac, hhost, hkc]

theorem lastVal_none (tag : List Char) (parts : List (List Char))
    (h : ∀ p ∈ parts, stripTag tag p = none) : lastVal tag parts = none := by
  induction parts with
  | nil => rfl
  | cons p ps ih =>
    rw [lastVal, ih (fun q hq => h q (by simp [hq])), h p (by simp)]

theorem lastValNonempty_none (tag : List Char) (parts : List (List Char))
    (h : ∀ p ∈ parts, ∀ v, stripTag tag p = some v → v = []) :
    lastValNonempty tag parts = none := by
  induction parts with
  | nil => rfl
  | cons p ps ih =>
    rw [lastValNonempty, ih (fun q hq => h q (by simp [hq]))]
    cases hp : stripTag tag p with
    | none => rfl
    | some v =>
      have : v = [] := h p (by simp) v hp
      subst this
      simp

/-- The split of the metadata record written at encryption time, when none
of the embedded values contains a separator. -/
theorem splitOnSemi_metadataOf (mac host ckStr : List Char)
    (hmac : ∀ c ∈ mac, c ≠ ';') (hhost : ∀ c ∈ host, c ≠ ';')
    (hck : ∀ c ∈ ckStr, c ≠ ';') :
    splitOnSemi (metadataOf mac host ckStr) =
      [macTag ++ mac, hostTag ++ host, keyCharTag ++ ckStr, []] := by
  have htag1 : ∀ x ∈ macTag, x ≠ ';' := by decide
  have htag2 : ∀ x ∈ hostTag, x ≠ ';' := by decide
  have htag3 : ∀ x ∈ keyCharTag, x ≠ ';' := by decide
  have h1 : ∀ c ∈ macTag ++ mac, c ≠ ';' := by
    intro c hc
    rcases List.mem_append.mp hc with h | h
    · exact htag1 c h
    · exact hmac c h
  have h2 : ∀ c ∈ hostTag ++ host, c ≠ ';' := by
    intro c hc
    rcases List.mem_append.mp hc with h | h
    · exact htag2 c h
    · exact hhost c h
  have h3 : ∀ c ∈ keyCharTag ++ ckStr, c ≠ ';' := by
    intro c hc
    rcases List.mem_append.mp hc with h | h
    · exact htag3 c h
    · exact hck c h
  have hshape : metadataOf mac host ckStr =
      (macTag ++ mac) ++ ';' :: ((hostTag ++ host) ++ ';' :: ((keyCharTag ++ ckStr) ++ ';' :: [])) := by
    simp [metadataOf]
  rw [hshape, splitOnSemi_sep _ _ h1, splitOnSemi_sep _ _ h2, splitOnSemi_sep _ _ h3]
  rfl

/-- Parsing the metadata record written at encryption time recovers the
embedded MAC, hostname and key character. -/
theorem parseMetadata_metadataOf (mac host ckStr : List Char) (fb : Char)
    (hmac : ∀ c ∈ mac, c ≠ ';') (hhost : ∀ c ∈ host, c ≠ ';')
    (hck : ∀ c ∈ ckStr, c ≠ ';') :
    parseMetadata (metadataOf mac host ckStr) fb =
      { mac := mac, host := host,
        keyChar := if ckStr.isEmpty then fb else ckStr.headD 'T' } := by
  unfold parseMetadata
  rw [splitOnSemi_metadataOf mac host ckStr hmac hhost hck, parse_foldl]
  have hm : lastVal macTag [macTag ++ mac, hostTag ++ host, keyCharTag ++ ckStr, []] =
      some mac := by
    have e1 : stripTag macTag (hostTag ++ host) = none := by
      cases h : stripTag macTag (hostTag ++ host) with
      | none => rfl
      | some v =>
        rw [stripTag_eq_some] at h
        exact absurd (congrArg (fun l => l.take 1) h) (by simp [hostTag, macTag])
    have e2 : stripTag macTag (keyCharTag ++ ckStr) = none := by
      cases h : stripTag macTag (keyCharTag ++ ckStr) with
      | none => rfl
      | some v =>
        rw [stripTag_eq_some] at h
        exact absurd (congrArg (fun l => l.take 1) h) (by simp [keyCharTag, macTag])
    simp [lastVal, e1, e2, stripTag_append, macTag, stripTag]
  have hh : lastVal hostTag [macTag ++ mac, hostTag ++ host, keyCharTag ++ ckStr, []] =
      some host := by
    have e2 : stripTag hostTag (keyCharTag ++ ckStr) = none := by
      cases h : stripTag hostTag (keyCharTag ++ ckStr) with
      | none => rfl
      | some v =>
        rw [stripTag_eq_some] at h
        exact absurd (congrArg (fun l => l.take 1) h) (by simp [keyCharTag, hostTag])
    simp [lastVal, e2, stripTag_append, hostTag, stripTag]
  have e3 : stripTag keyCharTag (macTag ++ mac) = none := by
    cases h : stripTag keyCharTag (macTag ++ mac) with
    | none => rfl
    | some v =>
      rw [stripTag_eq_some] at h
      exact absurd (congrArg (fun l => l.take 1) h) (by simp [keyCharTag, macTag])
  have e4 : stripTag keyCharTag (hostTag ++ host) = none := by
    cases h : stripTag keyCharTag (hostTag ++ host) with
    | none => rfl
    | some v =>
      rw [stripTag_eq_some] at h
      exact absurd (congrArg (fun l => l.take 1) h) (by simp [keyCharTag, hostTag])
  have hk : lastValNonempty keyCharTag [macTag ++ mac, hostTag ++ host, keyCharTag ++ ckStr, []] =
      if ckStr.isEmpty then none else some ckStr := by
    by_cases he : ckStr.isEmpty <;>
      simp [lastValNonempty, stripTag_append, e3, e4, he, keyCharTag, stripTag]
  rw [hm, hh, hk]
  by_cases he : ckStr.isEmpty <;> simp [he]

/-! ### Chunks, CBC and PKCS7 -/

theorem chunksAux_nil (fuel : Nat) : chunksAux fuel [] = [] := by
  cases fuel <;> rfl

theorem chunksAux_congr : ∀ (f1 f2 : Nat) (l : List Nat),
    l.length ≤ f1 → l.length ≤ f2 → chunksAux f1 l = chunksAux f2 l := by
  intro f1
  induction f1 with
  | zero =>
    intro f2 l h1 _
    have : l = [] := List.length_eq_zero.mp (by omega)
    subst this
    rw [chunksAux_nil, chunksAux_nil]
  | succ f ih =>
    intro f2 l h1 h2
    cases l with
    | nil => rw [chunksAux_nil, chunksAux_nil]
    | cons x xs =>
      cases f2 with
      | zero => simp at h2
      | succ g =>
        simp only [List.length_cons] at h1 h2
        simp only [chunksAux]
        rw [ih g ((x :: xs).drop 16) (by simp only [List.length_drop, List.length_cons]; omega)
          (by simp only [List.length_drop, List.length_cons]; omega)]

theorem chunks_cons (x : Nat) (xs : List Nat) :
    chunks (x :: xs) = (x :: xs).take 16 :: chunks ((x :: xs).drop 16) := by
  have h1 : chunks (x :: xs) = chunksAux (xs.length + 1) (x :: xs) := rfl
  have h2 : chunksAux (xs.length + 1) (x :: xs) =
      (x :: xs).take 16 :: chunksAux xs.length ((x :: xs).drop 16) := rfl
  rw [h1, h2]
  congr 1
  exact chunksAux_congr xs.length ((x :: xs).drop 16).length ((x :: xs).drop 16)
    (by simp only [List.length_drop, List.length_cons]; omega) le_rfl

theorem chunks_append16 (b r : List Nat) (h : b.length = 16) :
    chunks (b ++ r) = b :: chunks r := by
  have ht : (b ++ r).take 16 = b := by
    rw [← h]
    exact List.take_left b r
  have hd : (b ++ r).drop 16 = r := by
    rw [← h]
    exact List.drop_left b r
  cases b with
  | nil => simp at h
  | cons y ys =>
    rw [List.cons_append, chunks_cons y (ys ++ r), ← List.cons_append, ht, hd]

theorem chunks_flatten (bs : List (List Nat)) (h : ∀ b ∈ bs, b.length = 16) :
    chunks bs.flatten = bs := by
  induction bs with
  | nil => rfl
  | cons b rest ih =>
    rw [List.flatten_cons, chunks_append16 b rest.flatten (h b (by simp)),
      ih (fun x hx => h x (by simp [hx]))]

theorem flatten_chunksAux : ∀ (fuel : Nat) (l : List Nat),
    l.length ≤ fuel → (chunksAux fuel l).flatten = l := by
  intro fuel
  induction fuel with
  | zero =>
    intro l h
    have : l = [] := List.length_eq_zero.mp (by omega)
    subst this
    rfl
  | succ f ih =>
    intro l h
    cases l with
    | nil => rfl
    | cons x xs =>
      simp only [List.length_cons] at h
      simp only [chunksAux, List.flatten_cons]
      rw [ih ((x :: xs).drop 16) (by simp only [List.length_drop, List.length_cons]; omega),
        List.take_append_drop]

theorem flatten_chunks (l : List Nat) : (chunks l).flatten = l :=
  flatten_chunksAux l.length l le_rfl

theorem chunksAux_sixteen : ∀ (fuel : Nat) (l : List Nat),
    l.length ≤ fuel → l.length % 16 = 0 → ∀ b ∈ chunksAux fuel l, b.length = 16 := by
  intro fuel
  induction fuel with
  | zero =>
    intro l h _ b hb
    have : l = [] := List.length_eq_zero.mp (by omega)
    subst this
    simp [chunksAux_nil] at hb
  | succ f ih =>
    intro l hlen hmod b hb
    cases l with
    | nil => simp [chunksAux_nil] at hb
    | cons x xs =>
      have hge : 16 ≤ (x :: xs).length := by
        have : (x :: xs).length ≠ 0 := by simp
        omega
      simp only [chunksAux, List.mem_cons] at hb
      rcases hb with hb | hb
      · subst hb
        simp only [List.length_take]
        omega
      · exact ih ((x :: xs).drop 16) (by simp only [List.length_drop, List.length_cons] at *; omega)
          (by simp only [List.length_drop]; omega) b hb

theorem chunks_sixteen (l : List Nat) (h : l.length % 16 = 0) :
    ∀ b ∈ chunks l, b.length = 16 :=
  chunksAux_sixteen l.length l le_rfl h

theorem flatten_length_sixteen (bs : List (List Nat)) (h : ∀ b ∈ bs, b.length = 16) :
    bs.flatten.length = 16 * bs.length := by
  induction bs with
  | nil => rfl
  | cons b rest ih =>
    rw [List.flatten_cons, List.length_append, h b (by simp),
      ih (fun x hx => h x (by simp [hx]))]
    simp
    ring

theorem xorBytes_length (a b : List Nat) : (xorBytes a b).length = min a.length b.length := by
  simp [xorBytes]

theorem xorBytes_cancel : ∀ (a p : List Nat), a.length = p.length →
    xorBytes (xorBytes a p) p = a := by
  intro a
  induction a with
  | nil => intro p _; rfl
  | cons x xs ih =>
    intro p hp
    cases p with
    | nil => simp at hp
    | cons y ys =>
      simp only [xorBytes, List.zipWith_cons_cons] at *
      have hx : Nat.xor (Nat.xor x y) y = x := Nat.xor_cancel_right y x
      rw [hx]
      congr 1
      exact ih ys (by simpa using hp)

theorem cbcEncBlocks_sixteen (C : BlockCipher) (key : List Nat)
    (hE : ∀ b, b.length = 16 → (C.enc key b).length = 16) :
    ∀ (bs : List (List Nat)) (prev : List Nat), prev.length = 16 →
      (∀ b ∈ bs, b.length = 16) →
      (∀ cb ∈ cbcEncBlocks C key prev bs, cb.length = 16) ∧
        (cbcEncBlocks C key prev bs).length = bs.length := by
  intro bs
  induction bs with
  | nil => intro prev _ _; exact ⟨by simp [cbcEncBlocks], rfl⟩
  | cons b rest ih =>
    intro prev hprev hall
    have hb : b.length = 16 := hall b (by simp)
    have hxor : (xorBytes b prev).length = 16 := by
      rw [xorBytes_length, hb, hprev]
      simp
    have hc : (C.enc key (xorBytes b prev)).length = 16 := hE _ hxor
    have hrest := ih (C.enc key (xorBytes b prev)) hc (fun x hx => hall x (by simp [hx]))
    constructor
    · intro cb hcb
      simp only [cbcEncBlocks, List.mem_cons] at hcb
      rcases hcb with hcb | hcb
      · subst hcb; exact hc
      · exact hrest.1 cb hcb
    · simp only [cbcEncBlocks, List.length_cons, hrest.2]

theorem cbc_roundtrip (C : BlockCipher) (key : List Nat)
    (hC : ∀ b, b.length = 16 → (C.enc key b).length = 16 ∧ C.dec key (C.enc key b) = b) :
    ∀ (bs : List (List Nat)) (prev : List Nat), prev.length = 16 →
      (∀ b ∈ bs, b.length = 16) →
      cbcDecBlocks C key prev (cbcEncBlocks C key prev bs) = bs := by
  intro bs
  induction bs with
  | nil => intro prev _ _; rfl
  | cons b rest ih =>
    intro prev hprev hall
    have hb : b.length = 16 := hall b (by simp)
    have hxor : (xorBytes b prev).length = 16 := by
      rw [xorBytes_length, hb, hprev]
      simp
    have hdec := (hC _ hxor).2
    have hlen := (hC _ hxor).1
    simp only [cbcEncBlocks, cbcDecBlocks]
    rw [hdec, xorBytes_cancel b prev (by omega)]
    congr 1
    exact ih (C.enc key (xorBytes b prev)) hlen (fun x hx => hall x (by simp [hx]))

theorem pkcs7Unpad_pad (d : List Nat) (n : Nat) (h1 : 1 ≤ n) (h2 : n ≤ 16) :
    pkcs7Unpad (d ++ List.replicate n n) = .ok d := by
  have hlast : (d ++ List.replicate n n).getLast? = some n := by
    rw [List.getLast?_append]
    have : (List.replicate n n).getLast? = some n := by
      cases n with
      | zero => omega
      | succ m =>
        rw [List.replicate_succ']
        rw [List.getLast?_concat]
    rw [this]
    rfl
  have hlen : (d ++ List.replicate n n).length = d.length + n := by simp
  have hdrop : (d ++ List.replicate n n).drop ((d ++ List.replicate n n).length - n) =
      List.replicate n n := by
    rw [hlen, Nat.add_sub_cancel]
    exact List.drop_left d (List.replicate n n)
  have htake : (d ++ List.replicate n n).take ((d ++ List.replicate n n).length - n) = d := by
    rw [hlen, Nat.add_sub_cancel]
    exact List.take_left d (List.replicate n n)
  have hcond : 1 ≤ n ∧ n ≤ 16 ∧ n ≤ (d ++ List.replicate n n).length ∧
      ((d ++ List.replicate n n).drop ((d ++ List.replicate n n).length - n)).all
        (fun b => b = n) := by
    refine ⟨h1, h2, by rw [hlen]; omega, ?_⟩
    rw [hdrop]
    simp [List.mem_replicate]
  have hstep : pkcs7Unpad (d ++ List.replicate n n) =
      if 1 ≤ n ∧ n ≤ 16 ∧ n ≤ (d ++ List.replicate n n).length ∧
          ((d ++ List.replicate n n).drop ((d ++ List.replicate n n).length - n)).all
            (fun b => b = n) then
        RsResult.ok ((d ++ List.replicate n n).take ((d ++ List.replicate n n).length - n))
      else RsResult.err "Error during decryption: Unpad Error" := by
    unfold pkcs7Unpad
    rw [hlast]
  rw [hstep, if_pos hcond, htake]

/-- Round trip of the data layer: decrypting what `encrypt_data` produced,
with the same key and IV and a cipher whose block function inverts,
recovers the plaintext bytes. -/
theorem decrypt_data_encrypt_data (C : BlockCipher) (data key iv ct : List Nat)
    (hC : ∀ b, b.length = 16 → (C.enc key b).length = 16 ∧ C.dec key (C.enc key b) = b)
    (hkey : key.length = 32) (hiv : iv.length = 16)
    (henc : encrypt_data C data key iv = .ok ct) :
    decrypt_data C ct key iv = .ok data := by
  have hE : ∀ b, b.length = 16 → (C.enc key b).length = 16 := fun b hb => (hC b hb).1
  unfold encrypt_data at henc
  rw [if_pos ⟨hkey, hiv⟩] at henc
  have hct : ct = (cbcEncBlocks C key iv
      (chunks (data ++ List.replicate (16 - data.length % 16) (16 - data.length % 16)))).flatten := by
    cases henc
    rfl
  have hpadlen1 : 1 ≤ 16 - data.length % 16 := by omega
  have hpadlen2 : 16 - data.length % 16 ≤ 16 := by omega
  have hpadded : (data ++ List.replicate (16 - data.length % 16) (16 - data.length % 16)).length
      % 16 = 0 := by
    simp only [List.length_append, List.length_replicate]
    omega
  have hblocks : ∀ b ∈ chunks (data ++
      List.replicate (16 - data.length % 16) (16 - data.length % 16)), b.length = 16 :=
    chunks_sixteen _ hpadded
  have hcb := cbcEncBlocks_sixteen C key hE
    (chunks (data ++ List.replicate (16 - data.length % 16) (16 - data.length % 16))) iv hiv
    hblocks
  have hctlen : ct.length = (data ++
      List.replicate (16 - data.length % 16) (16 - data.length % 16)).length := by
    rw [hct, flatten_length_sixteen _ hcb.1, hcb.2, ← flatten_length_sixteen _ hblocks,
      flatten_chunks]
  have hctmod : ct.length % 16 = 0 := by rw [hctlen]; exact hpadded
  have hctne : ct.length ≠ 0 := by
    rw [hctlen]
    simp only [List.length_append, List.length_replicate]
    omega
  unfold decrypt_data
  rw [if_pos ⟨hkey, hiv⟩, if_pos ⟨hctmod, hctne⟩, hct, chunks_flatten _ hcb.1,
    cbc_roundtrip C key hC _ iv hiv hblocks, flatten_chunks]
  exact pkcs7Unpad_pad data (16 - data.length % 16) hpadlen1 hpadlen2

/-! ### UTF-8 decoding inverts encoding -/

theorem char_toNat_lt (c : Char) : c.toNat < 1114112 := by
  have hv : Nat.isValidChar c.toNat := c.valid
  rcases hv with h | ⟨_, h2⟩
  · omega
  · omega

theorem mkChar_toNat (c : Char) : mkChar c.toNat = some c := by
  have hv : Nat.isValidChar c.toNat := c.valid
  unfold mkChar
  rw [if_pos hv, Char.ofNat_toNat]

theorem decodeChar_charBytes (c : Char) (r : List Nat) :
    decodeChar (charBytes c ++ r) = some (c, r) := by
  have hub : c.toNat < 1114112 := char_toNat_lt c
  have hs : Nat.isValidChar c.toNat := c.valid
  by_cases h1 : c.toNat < 128
  · rw [show charBytes c = [c.toNat] from by unfold charBytes; rw [if_pos h1]]
    rw [show ([c.toNat] ++ r) = c.toNat :: r from rfl]
    simp only [decodeChar]
    rw [if_pos h1, mkChar_toNat]
    rfl
  · by_cases h2 : c.toNat < 2048
    · rw [show charBytes c = [192 + c.toNat / 64, 128 + c.toNat % 64] from by
        unfold charBytes; rw [if_neg h1, if_pos h2]]
      rw [show ([192 + c.toNat / 64, 128 + c.toNat % 64] ++ r) =
        (192 + c.toNat / 64) :: (128 + c.toNat % 64) :: r from rfl]
      simp only [decodeChar]
      rw [if_neg (by omega), if_neg (by omega), if_pos (by omega)]
      rw [if_pos (by constructor <;> omega)]
      rw [show (192 + c.toNat / 64 - 192) * 64 + (128 + c.toNat % 64 - 128) = c.toNat from by
        omega]
      rw [mkChar_toNat]
      rfl
    · by_cases h3 : c.toNat < 65536
      · rw [show charBytes c =
            [224 + c.toNat / 4096, 128 + c.toNat / 64 % 64, 128 + c.toNat % 64] from by
          unfold charBytes; rw [if_neg h1, if_neg h2, if_pos h3]]
        rw [show ([224 + c.toNat / 4096, 128 + c.toNat / 64 % 64, 128 + c.toNat % 64] ++ r) =
          (224 + c.toNat / 4096) :: (128 + c.toNat / 64 % 64) :: (128 + c.toNat % 64) :: r from
          rfl]
        simp only [decodeChar]
        rw [if_neg (by omega), if_neg (by omega), if_neg (by omega), if_pos (by omega)]
        rw [if_pos (by refine ⟨⟨by omega, by omega⟩, by omega, by omega⟩)]
        rw [if_pos (by omega)]
        rw [show (224 + c.toNat / 4096 - 224) * 4096 + (128 + c.toNat / 64 % 64 - 128) * 64 +
          (128 + c.toNat % 64 - 128) = c.toNat from by omega]
        rw [mkChar_toNat]
        rfl
      · rw [show charBytes c = [240 + c.toNat / 262144, 128 + c.toNat / 4096 % 64,
            128 + c.toNat / 64 % 64, 128 + c.toNat % 64] from by
          unfold charBytes; rw [if_neg h1, if_neg h2, if_neg h3]]
        rw [show ([240 + c.toNat / 262144, 128 + c.toNat / 4096 % 64, 128 + c.toNat / 64 % 64,
          128 + c.toNat % 64] ++ r) = (240 + c.toNat / 262144) :: (128 + c.toNat / 4096 % 64) ::
          (128 + c.toNat / 64 % 64) :: (128 + c.toNat % 64) :: r from rfl]
        simp only [decodeChar]
        rw [if_neg (by omega), if_neg (by omega), if_neg (by omega), if_neg (by omega),
          if_pos (by omega)]
        rw [if_pos (by refine ⟨⟨by omega, by omega⟩, ⟨by omega, by omega⟩, by omega, by omega⟩)]
        rw [if_pos (by omega)]
        rw [show (240 + c.toNat / 262144 - 240) * 262144 + (128 + c.toNat / 4096 % 64 - 128) *
          4096 + (128 + c.toNat / 64 % 64 - 128) * 64 + (128 + c.toNat % 64 - 128) = c.toNat
          from by omega]
        rw [mkChar_toNat]
        rfl

theorem charBytes_ne_nil (c : Char) : charBytes c ≠ [] := by
  have := charBytes_length_pos c
  intro h
  rw [h] at this
  simp at this

theorem utf8DecodeAux_nil (fuel : Nat) : utf8DecodeAux fuel [] = some [] := by
  cases fuel <;> rfl

theorem utf8DecodeAux_strBytes : ∀ (s : List Char) (fuel : Nat), s.length ≤ fuel →
    utf8DecodeAux fuel (strBytes s) = some s := by
  intro s
  induction s with
  | nil =>
    intro fuel _
    rw [show strBytes [] = [] from rfl, utf8DecodeAux_nil]
  | cons c cs ih =>
    intro fuel hf
    cases fuel with
    | zero => simp at hf
    | succ f =>
      rw [strBytes_cons]
      cases hcb : charBytes c with
      | nil => exact absurd hcb (charBytes_ne_nil c)
      | cons hd tl =>
        have hdc : decodeChar (hd :: (tl ++ strBytes cs)) = some (c, strBytes cs) := by
          rw [← List.cons_append, ← hcb]
          exact decodeChar_charBytes c (strBytes cs)
        rw [List.cons_append]
        rw [show utf8DecodeAux (f + 1) (hd :: (tl ++ strBytes cs)) =
          match decodeChar (hd :: (tl ++ strBytes cs)) with
          | some (c2, rest) => (utf8DecodeAux f rest).map (fun l => c2 :: l)
          | none => none from rfl]
        rw [hdc]
        show (utf8DecodeAux f (strBytes cs)).map (fun l => c :: l) = some (c :: cs)
        rw [ih f (by simp at hf; omega)]
        rfl

theorem utf8Decode_strBytes (s : List Char) : utf8Decode (strBytes s) = some s := by
  unfold utf8Decode
  exact utf8DecodeAux_strBytes s (strBytes s).length
    (le_trans (length_le_byteLen s) le_rfl)

/-- The executable cipher satisfies the block round-trip property assumed
of AES-256 in the abstract theorems. -/
theorem xorCipher_spec (key b : List Nat) (hk : key.length = 32) (hb : b.length = 16) :
    (xorCipher.enc key b).length = 16 ∧ xorCipher.dec key (xorCipher.enc key b) = b := by
  have ht : (key.take 16).length = 16 := by simp [hk]
  constructor
  · show (xorBytes b (key.take 16)).length = 16
    rw [xorBytes_length, hb, ht]
    simp
  · show xorBytes (xorBytes b (key.take 16)) (key.take 16) = b
    exact xorBytes_cancel b (key.take 16) (by rw [hb, ht])

/-! ### Claim theorems -/

/-- Claim C2, amended: restricted to identities and padding characters
consisting of single-byte (ASCII) characters, key derivation truncates an
identity whose byte length exceeds the target and otherwise appends the
padding character up to the target; the key is then exactly 32 bytes, the
IV exactly 16 bytes, and an identity longer than 32 bytes yields the key
equal to its first 32 bytes regardless of the padding character. -/
theorem C2_key_derivation (identity : List Char) (padChar : Char)
    (hpad : (charBytes padChar).length = 1)
    (hid : ∀ c ∈ identity, (charBytes c).length = 1) :
    (get_key 32 identity padChar).map List.length = some 32 ∧
    (get_key 16 identity padChar).map List.length = some 16 ∧
    (byteLen identity > 32 → get_key 32 identity padChar = some ((strBytes identity).take 32)) ∧
    (byteLen identity ≤ 32 → get_key 32 identity padChar =
      some (strBytes (identity ++ List.replicate (32 - byteLen identity) padChar))) := by
  have key_eq : ∀ len : Nat, get_key len identity padChar =
      some (if byteLen identity > len then (strBytes identity).take len
        else strBytes (identity ++ List.replicate (len - byteLen identity) padChar)) := by
    intro len
    unfold get_key
    rw [pad_with_char_all_one identity len padChar hpad hid]
    by_cases h : byteLen identity > len
    · rw [if_pos h, if_pos h, Option.map_some']
      rw [strBytes_take_all_one identity hid len]
    · rw [if_neg h, if_neg h, Option.map_some']
  have len_eq : ∀ len : Nat, ((get_key len identity padChar).map List.length) =
      some (max len (min len (byteLen identity))) := by
    intro len
    rw [key_eq len]
    by_cases h : byteLen identity > len
    · rw [if_pos h, Option.map_some', Option.some.injEq, List.length_take]
      show min len (byteLen identity) = _
      omega
    · rw [if_neg h, Option.map_some', Option.some.injEq]
      show byteLen (identity ++ List.replicate (len - byteLen identity) padChar) = _
      rw [byteLen_append, byteLen_replicate, hpad]
      omega
  refine ⟨?_, ?_, ?_, ?_⟩
  · rw [len_eq 32]
    congr 1
    omega
  · rw [len_eq 16]
    congr 1
    omega
  · intro h
    rw [key_eq 32, if_pos h]
  · intro h
    rw [key_eq 32, if_neg (by omega)]

/-- Claim C2, witness at the concrete identity and padding character of the
specification scenario. -/
theorem C2_key_derivation_witness :
    (get_key 32 ("AABBCCDDEEFFhost1".toList) 'X').map List.length = some 32 ∧
    (get_key 16 ("AABBCCDDEEFFhost1".toList) 'X').map List.length = some 16 ∧
    (byteLen ("AABBCCDDEEFFhost1".toList) > 32 →
      get_key 32 ("AABBCCDDEEFFhost1".toList) 'X' =
        some ((strBytes ("AABBCCDDEEFFhost1".toList)).take 32)) ∧
    (byteLen ("AABBCCDDEEFFhost1".toList) ≤ 32 →
      get_key 32 ("AABBCCDDEEFFhost1".toList) 'X' =
        some (strBytes ("AABBCCDDEEFFhost1".toList ++
          List.replicate (32 - byteLen ("AABBCCDDEEFFhost1".toList)) 'X'))) :=
  C2_key_derivation ("AABBCCDDEEFFhost1".toList) 'X' (by decide) (by decide)

/-- Claim C2, counterexample: the two-byte padding character é applied to
the one-character identity A produces a 33-byte key, not a 32-byte key. -/
theorem C2_key_derivation_cex :
    (get_key 32 ['A'] 'é').map List.length = some 33 ∧ some (33 : Nat) ≠ some 32 := by
  constructor
  · rfl
  · decide

/-- Claim C3: an input shorter than 4 bytes, or whose first 4 bytes read as
a little-endian u32 declare a metadata length exceeding the remaining byte
count, is rejected by `decrypt_json` with a format error before anything is
decrypted. -/
theorem C3_malformed_rejected (C : BlockCipher) (bytes : List Nat) (ck : Option (List Char)) :
    (bytes.length < 4 →
      decrypt_json C bytes ck = some (.err "File is too small to contain valid data")) ∧
    (4 ≤ bytes.length → bytes.length - 4 < fromLE4 (bytes.take 4) →
      decrypt_json C bytes ck = some (.err "File is too small to contain complete metadata")) := by
  constructor
  · intro h
    unfold decrypt_json
    rw [if_pos h]
  · intro h4 hlen
    unfold decrypt_json
    rw [if_neg (by omega), if_pos (by omega)]

/-- Claim C3, witness: a 3-byte input and a 5-byte input declaring 200
metadata bytes are both rejected with the format errors. -/
theorem C3_malformed_rejected_witness :
    decrypt_json xorCipher [1, 2, 3] none =
      some (.err "File is too small to contain valid data") ∧
    decrypt_json xorCipher [200, 0, 0, 0, 5] none =
      some (.err "File is too small to contain complete metadata") :=
  ⟨(C3_malformed_rejected xorCipher [1, 2, 3] none).1 (by decide),
   (C3_malformed_rejected xorCipher [200, 0, 0, 0, 5] none).2 (by decide) (by decide)⟩

/-- Claim C5: the ciphertext produced by `encrypt_data` has length equal to
the payload length plus `16 - (payload length mod 16)`; the pad length lies
between 1 and 16, a block-aligned payload receives one full extra block,
and the ciphertext length is a positive multiple of 16. -/
theorem C5_ciphertext_length (C : BlockCipher) (data key iv : List Nat)
    (hE : ∀ b, b.length = 16 → (C.enc key b).length = 16)
    (hkey : key.length = 32) (hiv : iv.length = 16) :
    ∃ ct, encrypt_data C data key iv = .ok ct ∧
      ct.length = data.length + (16 - data.length % 16) ∧
      1 ≤ 16 - data.length % 16 ∧ 16 - data.length % 16 ≤ 16 ∧
      ct.length % 16 = 0 ∧ 0 < ct.length ∧
      (data.length % 16 = 0 → ct.length = data.length + 16) := by
  have hpadmod : (data ++ List.replicate (16 - data.length % 16)
      (16 - data.length % 16)).length % 16 = 0 := by
    simp only [List.length_append, List.length_replicate]
    omega
  have hblocks := chunks_sixteen _ hpadmod
  have hcb := cbcEncBlocks_sixteen C key hE
    (chunks (data ++ List.replicate (16 - data.length % 16) (16 - data.length % 16))) iv hiv
    hblocks
  have hctlen : ((cbcEncBlocks C key iv (chunks (data ++
      List.replicate (16 - data.length % 16) (16 - data.length % 16)))).flatten).length =
      data.length + (16 - data.length % 16) := by
    rw [flatten_length_sixteen _ hcb.1, hcb.2, ← flatten_length_sixteen _ hblocks,
      flatten_chunks]
    simp only [List.length_append, List.length_replicate]
  refine ⟨_, by unfold encrypt_data; rw [if_pos ⟨hkey, hiv⟩], hctlen, by omega, by omega,
    ?_, ?_, ?_⟩
  · rw [hctlen]
    omega
  · rw [hctlen]
    omega
  · intro h0
    rw [hctlen]
    omega

/-- Claim C5, witness at a one-byte payload with the executable cipher. -/
theorem C5_ciphertext_length_witness :
    ∃ ct, encrypt_data xorCipher [7] (List.replicate 32 1) (List.replicate 16 2) = .ok ct ∧
      ct.length = ([7] : List Nat).length + (16 - ([7] : List Nat).length % 16) ∧
      1 ≤ 16 - ([7] : List Nat).length % 16 ∧ 16 - ([7] : List Nat).length % 16 ≤ 16 ∧
      ct.length % 16 = 0 ∧ 0 < ct.length ∧
      (([7] : List Nat).length % 16 = 0 → ct.length = ([7] : List Nat).length + 16) :=
  C5_ciphertext_length xorCipher [7] (List.replicate 32 1) (List.replicate 16 2)
    (fun b hb => (xorCipher_spec (List.replicate 32 1) b (by simp) hb).1) (by simp) (by simp)

/-- Claim C7: the metadata parser tolerates unknown fields; when no part
carries `MAC=` the MAC defaults to the empty string, when no part carries
`HOST=` the hostname defaults to the empty string, and when every
`KEY_CHAR=` part has an empty value the key character defaults to the
caller-supplied fallback, which is `T` when no fallback is given. -/
theorem C7_metadata_defaults (meta : List Char) (ck : Option (List Char)) :
    ((∀ p ∈ splitOnSemi meta, stripTag macTag p = none) →
      (parseMetadata meta (charKeyChar ck)).mac = []) ∧
    ((∀ p ∈ splitOnSemi meta, stripTag hostTag p = none) →
      (parseMetadata meta (charKeyChar ck)).host = []) ∧
    ((∀ p ∈ splitOnSemi meta, ∀ v, stripTag keyCharTag p = some v → v = []) →
      (parseMetadata meta (charKeyChar ck)).keyChar = charKeyChar ck) ∧
    charKeyChar none = 'T' := by
  refine ⟨?_, ?_, ?_, rfl⟩
  · intro h
    unfold parseMetadata
    rw [parse_foldl]
    simp [lastVal_none _ _ h]
  · intro h
    unfold parseMetadata
    rw [parse_foldl]
    simp [lastVal_none _ _ h]
  · intro h
    unfold parseMetadata
    rw [parse_foldl]
    simp [lastValNonempty_none _ _ h]

/-- Claim C7, witness on a metadata record with only unknown fields. -/
theorem C7_metadata_defaults_witness :
    (parseMetadata ("FOO=1;BAR=2".toList) (charKeyChar none)).mac = [] ∧
    (parseMetadata ("FOO=1;BAR=2".toList) (charKeyChar none)).host = [] ∧
    (parseMetadata ("FOO=1;BAR=2".toList) (charKeyChar none)).keyChar = charKeyChar none ∧
    charKeyChar none = 'T' :=
  ⟨(C7_metadata_defaults ("FOO=1;BAR=2".toList) none).1 (by decide),
   (C7_metadata_defaults ("FOO=1;BAR=2".toList) none).2.1 (by decide),
   (C7_metadata_defaults ("FOO=1;BAR=2".toList) none).2.2.1 (by decide),
   (C7_metadata_defaults ("FOO=1;BAR=2".toList) none).2.2.2⟩

/-- Claim C8: key derivation can panic, contradicting the claim. On the
33-byte identity made of 31 copies of A followed by é, `String::truncate`
is asked to cut at byte 32, inside the two-byte character é, and panics;
`pad_with_char` returns `none` (the panic), and `encrypt_json` aborts on a
fingerprint with that shape instead of returning a result or an error. -/
theorem C8_panic_on_multibyte_boundary :
    pad_with_char (List.replicate 31 'A' ++ ['é']) 32 'T' = none ∧
    encrypt_json xorCipher (List.replicate 12 'A') (List.replicate 19 'B' ++ ['é']) none
      ['h', 'i'] = none := by
  constructor
  · rfl
  · rfl

/-- Claim C10, amended: `MAC` and `HOST` take the value of the last part
carrying their tag, while `KEY_CHAR` takes the value of the last part
carrying its tag with a nonempty value; a duplicate `KEY_CHAR=` with empty
value does not overwrite an earlier nonempty one. -/
theorem C10_last_occurrence (meta : List Char) (fb : Char) :
    parseMetadata meta fb =
      { mac := (lastVal macTag (splitOnSemi meta)).getD [],
        host := (lastVal hostTag (splitOnSemi meta)).getD [],
        keyChar :=
          match lastValNonempty keyCharTag (splitOnSemi meta) with
          | some v => v.headD 'T'
          | none => fb } := by
  unfold parseMetadata
  rw [parse_foldl]

/-- Claim C10, counterexample: on `KEY_CHAR=a;KEY_CHAR=` both parts match
the known tag, yet the parser keeps `a` from the first part, while the
claimed last-occurrence semantics would give the default `T`. -/
theorem C10_last_occurrence_cex :
    splitOnSemi ("KEY_CHAR=a;KEY_CHAR=".toList) = [keyCharTag ++ ['a'], keyCharTag] ∧
    (parseMetadata ("KEY_CHAR=a;KEY_CHAR=".toList) 'T').keyChar = 'a' ∧
    (parseMetadataClaimed ("KEY_CHAR=a;KEY_CHAR=".toList) 'T').keyChar = 'T' ∧
    ('a' : Char) ≠ 'T' := by
  refine ⟨by decide, by decide, by decide, by decide⟩

/-- Claim C6, amended: on an enumerated interface list (whose MACs are
nonempty), the resolver picks, in order: the first interface passing the
first-pass predicate; otherwise the first interface whose lowercased name
does not contain `loopback`; and the hardcoded MAC only when every
interface name contains `loopback` (a list with a non-loopback virtual
adapter selects that adapter, not the hardcoded MAC). -/
theorem C6_mac_selection (ifaces : List (List Char × List Char))
    (hmacs : ∀ p ∈ ifaces, p.2 ≠ []) :
    (∀ p, ifaces.find? (fun q => firstPassPred (lowerAscii q.1)) = some p →
      get_mac_from_interfaces ifaces = p.2) ∧
    (ifaces.find? (fun q => firstPassPred (lowerAscii q.1)) = none →
      ∀ p, ifaces.find? (fun q => !containsStr (lowerAscii q.1) loopbackStr) = some p →
        get_mac_from_interfaces ifaces = p.2) ∧
    (ifaces.find? (fun q => !containsStr (lowerAscii q.1) loopbackStr) = none →
      get_mac_from_interfaces ifaces = hardcodedMac) := by
  refine ⟨?_, ?_, ?_⟩
  · intro p hp
    have hpne : p.2 ≠ [] := hmacs p (List.mem_of_find?_eq_some hp)
    have hie : p.2.isEmpty = false := by
      cases hsnd : p.2 with
      | nil => exact absurd hsnd hpne
      | cons a l => rfl
    simp only [get_mac_from_interfaces, hp, hie]
    simp [hie]
  · intro h1 p hp
    have hpne : p.2 ≠ [] := hmacs p (List.mem_of_find?_eq_some hp)
    have hie : p.2.isEmpty = false := by
      cases hsnd : p.2 with
      | nil => exact absurd hsnd hpne
      | cons a l => rfl
    simp only [get_mac_from_interfaces, h1, hp]
    simp [hie]
  · intro h2
    have h1 : ifaces.find? (fun q => firstPassPred (lowerAscii q.1)) = none := by
      cases hf : ifaces.find? (fun q => firstPassPred (lowerAscii q.1)) with
      | none => rfl
      | some p =>
        have hmem : p ∈ ifaces := List.mem_of_find?_eq_some hf
        have hpred0 := List.find?_some hf
        have hpred : firstPassPred (lowerAscii p.1) = true := hpred0
        have hall := List.find?_eq_none.mp h2 p hmem
        simp only [firstPassPred, Bool.and_eq_true] at hpred
        simp only [Bool.not_eq_true] at hall
        rw [hpred.1.2] at hall
        cases hall
    simp only [get_mac_from_interfaces, h1, h2]
    simp

/-- Claim C6, witness: a physical Ethernet adapter is preferred over a
virtual adapter. -/
theorem C6_mac_selection_witness :
    get_mac_from_interfaces
        [("Ethernet adapter Ethernet".toList, "112233445566".toList),
         ("Ethernet adapter VirtualBox Host-Only Network".toList, "0A0027000005".toList)] =
      "112233445566".toList :=
  (C6_mac_selection
      [("Ethernet adapter Ethernet".toList, "112233445566".toList),
       ("Ethernet adapter VirtualBox Host-Only Network".toList, "0A0027000005".toList)]
      (by decide)).1
    ("Ethernet adapter Ethernet".toList, "112233445566".toList) (by decide)

/-- Claim C6, counterexample: a list containing only a loopback adapter and
a (non-loopback) virtual adapter does not fall through to the hardcoded
MAC, as the claim states; the second pass selects the virtual adapter. -/
theorem C6_mac_selection_cex :
    containsStr (lowerAscii ("Ethernet adapter Loopback Pseudo-Interface 1".toList))
      loopbackStr = true ∧
    containsStr (lowerAscii ("Ethernet adapter VirtualBox Host-Only Network".toList))
      virtualStr = true ∧
    get_mac_from_interfaces
        [("Ethernet adapter Loopback Pseudo-Interface 1".toList, "1A2B3C4D5E6F".toList),
         ("Ethernet adapter VirtualBox Host-Only Network".toList, "0A0027000005".toList)] =
      "0A0027000005".toList ∧
    ("0A0027000005".toList : List Char) ≠ hardcodedMac := by
  refine ⟨by decide, by decide, by decide, by decide⟩

/-- Claim C9, amended: the full caller key string is embedded verbatim in
the metadata; derivation uses its first character (or `T` when the string
is empty or absent); and provided the key string contains no `;`, the
decrypt side re-derives the same character from the metadata. A key string
starting with `;` makes the decrypt side fall back to `T` instead. -/
theorem C9_key_char_usage (mac host : List Char) (ck : Option (List Char))
    (hmac : ∀ c ∈ mac, c ≠ ';') (hhost : ∀ c ∈ host, c ≠ ';')
    (hck : ∀ c ∈ ck.getD ['T'], c ≠ ';') :
    metadataOf mac host (ck.getD ['T']) =
      macTag ++ mac ++ [';'] ++ hostTag ++ host ++ [';'] ++ keyCharTag ++
        ck.getD ['T'] ++ [';'] ∧
    (∀ s, ck = some s → s ≠ [] → charKeyChar ck = s.headD 'T') ∧
    ((ck = none ∨ ck = some []) → charKeyChar ck = 'T') ∧
    (parseMetadata (metadataOf mac host (ck.getD ['T'])) (charKeyChar none)).keyChar =
      charKeyChar ck := by
  refine ⟨rfl, ?_, ?_, ?_⟩
  · intro s hs hne
    subst hs
    rfl
  · rintro (h | h) <;> subst h <;> rfl
  · rw [parseMetadata_metadataOf mac host (ck.getD ['T']) (charKeyChar none) hmac hhost hck]
    show (if (ck.getD ['T']).isEmpty then charKeyChar none else (ck.getD ['T']).headD 'T') =
      charKeyChar ck
    cases ck with
    | none => rfl
    | some s =>
      cases s with
      | nil => rfl
      | cons a l => rfl

/-- Claim C9, witness: a three-character key string is embedded verbatim,
only its first character is used, and decrypt re-derives the same
character. -/
theorem C9_key_char_usage_witness :
    metadataOf ("AB".toList) ("cd".toList) ((some "XYZ".toList).getD ['T']) =
      macTag ++ "AB".toList ++ [';'] ++ hostTag ++ "cd".toList ++ [';'] ++ keyCharTag ++
        (some "XYZ".toList).getD ['T'] ++ [';'] ∧
    charKeyChar (some "XYZ".toList) = 'X' ∧
    (parseMetadata (metadataOf ("AB".toList) ("cd".toList) ((some "XYZ".toList).getD ['T']))
      (charKeyChar none)).keyChar = charKeyChar (some "XYZ".toList) := by
  have h := C9_key_char_usage ("AB".toList) ("cd".toList) (some "XYZ".toList)
    (by decide) (by decide) (by decide)
  exact ⟨h.1, h.2.1 ("XYZ".toList) rfl (by decide), h.2.2.2⟩

/-- Claim C9, counterexample: the key string starting with `;` derives `;`
on the encrypt side but the metadata parser yields the fallback `T` on the
decrypt side, so the two sides disagree. -/
theorem C9_key_char_usage_cex :
    charKeyChar (some [';', 'a']) = ';' ∧
    (parseMetadata (metadataOf ['A'] ['b'] ((some [';', 'a']).getD ['T']))
      (charKeyChar none)).keyChar = 'T' ∧
    (';' : Char) ≠ 'T' := by
  refine ⟨by decide, by decide, by decide⟩

/-- Claim C4: every container produced by `encrypt_json` starts with the
4-byte little-endian encoding of the exact byte length of the serialized
metadata record, immediately followed by the metadata bytes and then the
ciphertext bytes (stated for metadata below the u32 range, where the `as
u32` cast is the identity). -/
theorem C4_container_layout (C : BlockCipher) (mac host : List Char) (ck : Option (List Char))
    (payload : List Char) (container : List Nat)
    (hmeta : byteLen (metadataOf mac host (ck.getD ['T'])) < 4294967296)
    (henc : encrypt_json C mac host ck payload = some (.ok container)) :
    ∃ key iv ct,
      get_key 32 (mac ++ host) (charKeyChar ck) = some key ∧
      get_key 16 (mac ++ host) (charKeyChar ck) = some iv ∧
      encrypt_data C (strBytes payload) key iv = .ok ct ∧
      container = toLE4 (byteLen (metadataOf mac host (ck.getD ['T']))) ++
        strBytes (metadataOf mac host (ck.getD ['T'])) ++ ct ∧
      container.take 4 = toLE4 (byteLen (metadataOf mac host (ck.getD ['T']))) ∧
      fromLE4 (container.take 4) = byteLen (metadataOf mac host (ck.getD ['T'])) := by
  simp only [encrypt_json] at henc
  split at henc
  · rename_i key iv hk hiv
    split at henc
    · rename_i ct he
      simp only [Option.some.injEq, RsResult.ok.injEq] at henc
      have hcont : container = toLE4 (byteLen (metadataOf mac host (ck.getD ['T']))) ++
          strBytes (metadataOf mac host (ck.getD ['T'])) ++ ct := henc.symm
      have htake : container.take 4 =
          toLE4 (byteLen (metadataOf mac host (ck.getD ['T']))) := by
        rw [hcont, List.append_assoc]
        have h4 : (4 : Nat) =
            (toLE4 (byteLen (metadataOf mac host (ck.getD ['T'])))).length := rfl
        rw [h4]
        exact List.take_left _ _
      refine ⟨key, iv, ct, hk, hiv, he, hcont, htake, ?_⟩
      rw [htake]
      exact fromLE4_toLE4 _ hmeta
    · rename_i e he
      simp at henc
  · simp at henc

/-- Claim C4, witness at concrete inputs with the executable cipher. -/
theorem C4_container_layout_witness :
    ∃ key iv ct,
      get_key 32 ("AB".toList ++ "cd".toList) (charKeyChar (some "Z".toList)) = some key ∧
      get_key 16 ("AB".toList ++ "cd".toList) (charKeyChar (some "Z".toList)) = some iv ∧
      encrypt_data xorCipher (strBytes "pay".toList) key iv = .ok ct ∧
      rsOkD (encrypt_json xorCipher ("AB".toList) ("cd".toList) (some "Z".toList)
          ("pay".toList)) [] =
        toLE4 (byteLen (metadataOf ("AB".toList) ("cd".toList) ((some "Z".toList).getD ['T']))) ++
          strBytes (metadataOf ("AB".toList) ("cd".toList) ((some "Z".toList).getD ['T'])) ++
          ct ∧
      (rsOkD (encrypt_json xorCipher ("AB".toList) ("cd".toList) (some "Z".toList)
          ("pay".toList)) []).take 4 =
        toLE4 (byteLen (metadataOf ("AB".toList) ("cd".toList) ((some "Z".toList).getD ['T']))) ∧
      fromLE4 ((rsOkD (encrypt_json xorCipher ("AB".toList) ("cd".toList) (some "Z".toList)
          ("pay".toList)) []).take 4) =
        byteLen (metadataOf ("AB".toList) ("cd".toList) ((some "Z".toList).getD ['T'])) :=
  C4_container_layout xorCipher ("AB".toList) ("cd".toList) (some "Z".toList) ("pay".toList)
    (rsOkD (encrypt_json xorCipher ("AB".toList) ("cd".toList) (some "Z".toList)
      ("pay".toList)) [])
    (by decide) (by decide)

/-- Claim C1, amended: for every payload and every padding key whose string
contains no `;` (in particular every padding character other than `;`),
when the machine MAC and hostname contain no `;` and the metadata fits a
u32, decrypting a container produced by `encrypt_json` with a correct
block cipher returns the original payload, the key and IV being re-derived
solely from the embedded metadata. -/
theorem C1_round_trip (C : BlockCipher) (mac host payload : List Char)
    (ck : Option (List Char)) (container : List Nat)
    (hC : ∀ key b, key.length = 32 → b.length = 16 →
      (C.enc key b).length = 16 ∧ C.dec key (C.enc key b) = b)
    (hmac : ∀ c ∈ mac, c ≠ ';') (hhost : ∀ c ∈ host, c ≠ ';')
    (hck : ∀ c ∈ ck.getD ['T'], c ≠ ';')
    (hmeta : byteLen (metadataOf mac host (ck.getD ['T'])) < 4294967296)
    (henc : encrypt_json C mac host ck payload = some (.ok container)) :
    decrypt_json C container none = some (.ok payload) := by
  simp only [encrypt_json] at henc
  split at henc
  · rename_i key iv hk hiv
    split at henc
    · rename_i ct he
      simp only [Option.some.injEq, RsResult.ok.injEq] at henc
      have hkl : key.length = 32 ∧ iv.length = 16 := by
        by_contra hco
        unfold encrypt_data at he
        rw [if_neg hco] at he
        cases he
      have hCk : ∀ b, b.length = 16 →
          (C.enc key b).length = 16 ∧ C.dec key (C.enc key b) = b :=
        fun b hb => hC key b hkl.1 hb
      have hdec : decrypt_data C ct key iv = .ok (strBytes payload) :=
        decrypt_data_encrypt_data C (strBytes payload) key iv ct hCk hkl.1 hkl.2 he
      have hcont : container =
          toLE4 (strBytes (metadataOf mac host (ck.getD ['T']))).length ++
            strBytes (metadataOf mac host (ck.getD ['T'])) ++ ct := henc.symm
      have hclen : container.length =
          4 + (strBytes (metadataOf mac host (ck.getD ['T']))).length + ct.length := by
        rw [hcont]
        simp [toLE4]
        omega
      have h4 : ¬ (container.length < 4) := by omega
      have htake4 : container.take 4 =
          toLE4 (strBytes (metadataOf mac host (ck.getD ['T']))).length := by
        rw [hcont, List.append_assoc]
        have he4 : (4 : Nat) =
            (toLE4 (strBytes (metadataOf mac host (ck.getD ['T']))).length).length := rfl
        rw [he4]
        exact List.take_left _ _
      have hfrom : fromLE4 (container.take 4) =
          (strBytes (metadataOf mac host (ck.getD ['T']))).length := by
        rw [htake4]
        exact fromLE4_toLE4 _ hmeta
      have h5 : ¬ (container.length <
          4 + (strBytes (metadataOf mac host (ck.getD ['T']))).length) := by omega
      have hdrop4 : container.drop 4 =
          strBytes (metadataOf mac host (ck.getD ['T'])) ++ ct := by
        rw [hcont, List.append_assoc]
        have he4 : (4 : Nat) =
            (toLE4 (strBytes (metadataOf mac host (ck.getD ['T']))).length).length := rfl
        rw [he4]
        exact List.drop_left _ _
      have hparse := parseMetadata_metadataOf mac host (ck.getD ['T']) (charKeyChar none)
        hmac hhost hck
      have hkc : (if (ck.getD ['T']).isEmpty then charKeyChar none
          else (ck.getD ['T']).headD 'T') = charKeyChar ck := by
        cases ck with
        | none => rfl
        | some s =>
          cases s with
          | nil => rfl
          | cons a l => rfl
      simp only [decrypt_json, hfrom, h4, h5, hdrop4, if_false, List.take_left,
        List.drop_left, utf8Decode_strBytes, hparse, hkc, hk, hiv, hdec]
    · rename_i e he
      simp at henc
  · simp at henc

/-- Claim C1, witness: a concrete round trip through the executable cipher
with the default padding key. -/
theorem C1_round_trip_witness :
    decrypt_json xorCipher
        (rsOkD (encrypt_json xorCipher ("AABBCCDDEEFF".toList) ("myhost".toList) none
          ("hi there".toList)) []) none =
      some (.ok ("hi there".toList)) :=
  C1_round_trip xorCipher ("AABBCCDDEEFF".toList) ("myhost".toList) ("hi there".toList) none
    (rsOkD (encrypt_json xorCipher ("AABBCCDDEEFF".toList) ("myhost".toList) none
      ("hi there".toList)) [])
    (fun key b hk hb => xorCipher_spec key b hk hb)
    (by decide) (by decide) (by decide) (by decide) rfl

/-- Claim C1, counterexample: with the padding character `;`, encryption
succeeds and produces a container, but decrypting that container does not
return the original payload — the metadata parser cannot recover a key
character equal to `;`, so decryption re-derives a different key. -/
theorem C1_round_trip_cex :
    encrypt_json xorCipher ("AABBCC".toList) ("h".toList) (some [';'])
        ("0123456789abcdef".toList) =
      some (.ok (rsOkD (encrypt_json xorCipher ("AABBCC".toList) ("h".toList) (some [';'])
        ("0123456789abcdef".toList)) [])) ∧
    decrypt_json xorCipher
        (rsOkD (encrypt_json xorCipher ("AABBCC".toList) ("h".toList) (some [';'])
          ("0123456789abcdef".toList)) []) none ≠
      some (.ok ("0123456789abcdef".toList)) := by
  refine ⟨rfl, by decide⟩

end Encryption
